import Mathlib

set_option maxRecDepth 4000

/-!
# Verification of the GPU-server video-inference job engine

A shallow embedding of the asynchronous video-inference subsystem of
`gpu-server/api.py`: the job registry and its cancellation endpoint
(`cancel_inference`), the background job runner (`process_video_inference`),
the frame accessor with corrupted-leading-frame fallback (`get_video_frame`),
the region-of-interest inference dominant-class policy
(`_run_inference_on_box_internal`), and the motion-segment detector
(`analyze_motion`).

Machine-level concerns (OpenCV decoding, torch tensors, JPEG bytes) are
abstracted: a video is its container frame-count metadata plus the list of
sequentially decodable frames, each frame carrying the inference output the
model would produce for it; preview bytes are represented by an opaque frame
index.  Python float arithmetic on progress values and motion scores is
modelled with exact rationals: all branch decisions in the source are order
comparisons, which the rational model reflects faithfully.  The Python
`ZeroDivisionError` raised by `(frame_count / total_frames) * 100` when the
container metadata reports zero frames is modelled explicitly, since the
runner's `except` clause turns it into a `failed` job.
-/

namespace PipeInspect

/-- Job status strings used in `active_jobs` entries. -/
inductive Status where
  | running
  | cancelling
  | cancelled
  | completed
  | failed
deriving DecidableEq, Repr

/-- A terminal status never left by the job runner itself. -/
def Status.isTerminal : Status → Bool
  | .completed => true
  | .cancelled => true
  | .failed => true
  | _ => false

/-- One entry of the `active_jobs` registry (`run_video_inference` creates it;
`process_video_inference` and `cancel_inference` mutate it). -/
structure Job where
  status : Status
  progress : ℚ
  current_frame : Nat
  total_frames : Nat
  video_path : String
  output_path : String
  cancel_requested : Bool
  error : Option String
  fps : ℚ
  latest_frame : Option Nat
  result_file : Option String
deriving DecidableEq, Repr

/-- The registry entry as created by `run_video_inference` before the worker
thread starts. -/
def initialJob (video_path output_path : String) : Job where
  status := .running
  progress := 0
  current_frame := 0
  total_frames := 0
  video_path := video_path
  output_path := output_path
  cancel_requested := false
  error := none
  fps := 0
  latest_frame := none
  result_file := none

/-- Response of the cancellation endpoint. -/
inductive CancelResp where
  | ok
  | alreadyCompleted
deriving DecidableEq, Repr

/-- `cancel_inference` (api.py:1631-1656): under the job lock, reject when the
status is `completed`; otherwise set `cancel_requested` and move the status to
`cancelling`.  No other status is checked. -/
def cancel_inference (j : Job) : Job × CancelResp :=
  if j.status = .completed then
    (j, .alreadyCompleted)
  else
    ({ j with cancel_requested := true, status := .cancelling }, .ok)

/-- External registry operations a caller can issue against one job: a status
poll (`get_inference_status`, read-only) or a cancellation request. -/
inductive ApiOp where
  | poll
  | cancel
deriving DecidableEq, Repr

/-- Effect of one external operation on the job record. -/
def applyOp (j : Job) : ApiOp → Job
  | .poll => j
  | .cancel => (cancel_inference j).1

/-- Effect of a sequence of external operations. -/
def applyOps (j : Job) (ops : List ApiOp) : Job :=
  ops.foldl applyOp j

/-! ## The job runner (`process_video_inference`) -/

/-- Model type selector of a job. -/
inductive ModelType where
  | segformer
  | yolo
deriving DecidableEq, Repr

/-- One detection record built in the YOLO branch of the runner loop. -/
structure Detection where
  box : List Int
  label : String
  class_id : Nat
  confidence : ℚ
deriving DecidableEq, Repr

/-- Per-frame payload of a result entry: the YOLO branch stores a
`detections` list, the SegFormer branch stores the list of class ids present
in the predicted mask (`classes`). -/
inductive FramePayload where
  | detections (ds : List Detection)
  | classes (cs : List Nat)
deriving DecidableEq, Repr

/-- One element of the result document's `results` array. -/
structure FrameRecord where
  frame_number : Nat
  payload : FramePayload
deriving DecidableEq, Repr

/-- What the inference engine would produce for one decodable frame: the YOLO
detections and the SegFormer mask class list.  The runner uses whichever its
`model_type` selects. -/
structure FrameOut where
  dets : List Detection
  cls : List Nat
deriving DecidableEq, Repr

/-- Build the per-frame record exactly as the loop body does. -/
def mkFrameRecord (mt : ModelType) (k : Nat) (f : FrameOut) : FrameRecord :=
  match mt with
  | .yolo => ⟨k, .detections f.dets⟩
  | .segformer => ⟨k, .classes f.cls⟩

/-- The JSON document written to `output_path/inference_results.json`. -/
structure ResultDoc where
  video_path : String
  total_frames : Nat
  fps : ℚ
  width : Nat
  height : Nat
  model_type : ModelType
  results : List FrameRecord
deriving DecidableEq, Repr

/-- Inputs of one job run.  `metaTotal` is the container's
`CAP_PROP_FRAME_COUNT` metadata; `frames` is the sequence of frames
`cap.read()` actually yields before it first returns `ret = False`;
`cancelAt = some c` means the external cancellation flag is observed set from
the `c`-th top-of-loop check onward (the flag is settable once and never
reset, so observation is monotone). -/
structure RunInput where
  video_path : String
  output_path : String
  model_type : ModelType
  metaTotal : Nat
  fps : ℚ
  width : Nat
  height : Nat
  frames : List FrameOut
  cancelAt : Option Nat
deriving DecidableEq, Repr

/-- Whether the cancellation flag is visible at the `k`-th top-of-loop check. -/
def cancelSeen (c? : Option Nat) (k : Nat) : Bool :=
  match c? with
  | none => false
  | some c => decide (c ≤ k)

/-- The frame-by-frame loop of `process_video_inference` (api.py:2339-2489).
Returns the final job record, `some` of the per-frame result list when the
loop exhausted normally (so that the caller writes the document), and the
chronological list of registry states the loop published.

Per iteration, in source order: the cancellation check under the lock (on
success: status `cancelled`, release, return — no document); `cap.read()`
(failure breaks the loop, the document is then written); the inference and
record construction; `progress = (frame_count / total_frames) * 100`, which
raises `ZeroDivisionError` when the metadata frame count is zero — the
runner's `except` clause then marks the job `failed` with the error text; the
registry update of `current_frame`/`progress`, attaching a preview only every
10th frame. -/
def inferLoop (mt : ModelType) (metaTotal : Nat) (c? : Option Nat) :
    Nat → List FrameOut → Job → Job × Option (List FrameRecord) × List Job
  | k, [], job =>
    if cancelSeen c? k then
      let j := { job with status := .cancelled, cancel_requested := true }
      (j, none, [j])
    else
      (job, some [], [])
  | k, f :: rest, job =>
    if cancelSeen c? k then
      let j := { job with status := .cancelled, cancel_requested := true }
      (j, none, [j])
    else if metaTotal = 0 then
      let j := { job with status := .failed, error := some "division by zero" }
      (j, none, [j])
    else
      let j := { job with
        current_frame := k + 1,
        progress := ((k : ℚ) + 1) / (metaTotal : ℚ) * 100,
        latest_frame := if k % 10 = 0 then some k else job.latest_frame }
      let r := inferLoop mt metaTotal c? (k + 1) rest j
      (r.1, (r.2.1).map (fun l => mkFrameRecord mt k f :: l), j :: r.2.2)

/-- Outcome of one job run: the final registry entry, the document written to
disk (if any), and the chronological registry snapshots a status poll could
observe. -/
structure RunOutcome where
  job : Job
  doc : Option ResultDoc
  trace : List Job

/-- The registry entry after the runner stored the container metadata
(api.py:2316-2319), before the first loop iteration. -/
def startJob (inp : RunInput) : Job :=
  { initialJob inp.video_path inp.output_path with
      total_frames := inp.metaTotal, fps := inp.fps }

/-- The loop run of a job, from frame 0 on the registered entry. -/
def loopRun (inp : RunInput) : Job × Option (List FrameRecord) × List Job :=
  inferLoop inp.model_type inp.metaTotal inp.cancelAt 0 inp.frames (startJob inp)

/-- The result document the runner serializes on normal loop exhaustion
(api.py:2493-2504): its `total_frames` field is the loop's `frame_count`,
i.e. the number of records. -/
def mkResultDoc (inp : RunInput) (recs : List FrameRecord) : ResultDoc where
  video_path := inp.video_path
  total_frames := recs.length
  fps := inp.fps
  width := inp.width
  height := inp.height
  model_type := inp.model_type
  results := recs

/-- The registry entry after the completion update (api.py:2506-2510). -/
def finishJob (inp : RunInput) : Job :=
  { (loopRun inp).1 with
      status := .completed,
      progress := 100,
      result_file := some (inp.output_path ++ "/inference_results.json") }

/-- `process_video_inference` (api.py:2297-2527) on an opened video: register
the container metadata, run the loop, and on normal exhaustion write the
result document and finalize the job as `completed` with `progress = 100`. -/
def process_video_inference (inp : RunInput) : RunOutcome :=
  match (loopRun inp).2.1 with
  | some recs =>
    { job := finishJob inp
      doc := some (mkResultDoc inp recs)
      trace := initialJob inp.video_path inp.output_path :: startJob inp ::
        ((loopRun inp).2.2 ++ [finishJob inp]) }
  | none =>
    { job := (loopRun inp).1
      doc := none
      trace := initialJob inp.video_path inp.output_path :: startJob inp ::
        (loopRun inp).2.2 }

/-- The per-frame records the loop produces from index `k` on. -/
def recordsFrom (mt : ModelType) : Nat → List FrameOut → List FrameRecord
  | _, [] => []
  | k, f :: rest => mkFrameRecord mt k f :: recordsFrom mt (k + 1) rest

/-! ## The frame accessor (`get_video_frame`) -/

/-- Errors of the single-frame endpoint: the range rejection (carrying the
container frame count) and the final decode failure. -/
inductive FrameErr where
  | outOfRange (total : Nat)
  | decodeError
deriving DecidableEq, Repr

/-- The hard-coded fallback indices tried, in order, when a low frame index
fails to decode (api.py:508). -/
def fallbackIndices : List Nat := [10, 30, 50, 100, 150, 200]

/-- Try each index in order and return the first that decodes
(api.py:508-513).  `decode i` models `cap.set(POS_FRAMES, i); cap.read()`. -/
def tryFallbacks {Frame : Type} (decode : Nat → Option Frame) :
    List Nat → Option Frame
  | [] => none
  | i :: rest =>
    match decode i with
    | some fr => some fr
    | none => tryFallbacks decode rest

/-- `get_video_frame` (api.py:441-531) after the video opened: validate the
index against the container frame-count metadata, decode it, and on failure
retry the fallback indices — but only when the requested index is below 200. -/
def get_video_frame {Frame : Type} (total : Nat) (decode : Nat → Option Frame)
    (frame_number : Int) : Except FrameErr Frame :=
  if frame_number < 0 ∨ (total : Int) ≤ frame_number then
    .error (.outOfRange total)
  else
    let fn := frame_number.toNat
    match decode fn with
    | some fr => .ok fr
    | none =>
      if fn < 200 then
        match tryFallbacks decode fallbackIndices with
        | some fr => .ok fr
        | none => .error .decodeError
      else .error .decodeError

/-! ## Region-of-interest inference (`_run_inference_on_box_internal`) -/

/-- A polygon point of the response. -/
structure PPoint where
  x : Int
  y : Int
deriving DecidableEq, Repr

/-- The fields of the box-inference response relevant to the dominant-class
policy. -/
structure BoxResult where
  dominant_class : Nat
  dominant_class_name : String
  dominant_frac : ℚ
  polygon : List PPoint
deriving DecidableEq, Repr

/-- Number of pixels of class `c` in the flattened predicted crop mask. -/
def classCount (predicted : List Nat) (c : Nat) : Nat :=
  (predicted.filter (· = c)).length

/-- Class-name mapping of the box-inference endpoint (api.py:1184-1188). -/
def className (c : Nat) : String :=
  match c with
  | 0 => "background"
  | 1 => "rust"
  | 2 => "scale"
  | _ => "class_" ++ toString c

/-- `max(non_bg_counts, key=non_bg_counts.get)` over the dict built from
`np.unique` output: candidate classes are the distinct non-zero classes in
ascending order, and Python's `max` keeps the first key attaining the maximal
count, so ties resolve to the smallest class id. -/
def dominantOf (predicted : List Nat) : Nat :=
  let cands := (predicted.filter (· ≠ 0)).dedup.mergeSort (· ≤ ·)
  match cands with
  | [] => 0
  | c :: rest =>
    rest.foldl (fun best c' =>
      if classCount predicted best < classCount predicted c' then c' else best) c

/-- The dominant-class portion of `_run_inference_on_box_internal`
(api.py:1179-1279).  `extractPolygon c` abstracts the contour extraction and
Douglas-Peucker simplification run on the mask of class `c`; it is consulted
only when the dominant class is not background, matching the
`if dominant_class != 0` guard at api.py:1244. -/
def run_inference_on_box (predicted : List Nat)
    (extractPolygon : Nat → List PPoint) : BoxResult :=
  if (predicted.filter (· ≠ 0)) = [] then
    { dominant_class := 0
      dominant_class_name := "background"
      dominant_frac := 1
      polygon := [] }
  else
    let dom := dominantOf predicted
    { dominant_class := dom
      dominant_class_name := className dom
      dominant_frac := (classCount predicted dom : ℚ) / (predicted.length : ℚ)
      polygon := extractPolygon dom }

/-! ## Motion-segment detection (`analyze_motion`) -/

/-- The fixed sampling stride of the motion pass (api.py:1996). -/
def motion_sample_interval : Nat := 5

/-- The sampled frame indices, `range(0, max_frames, 5)`. -/
def sampledFrameIndices (maxFrames : Nat) : List Nat :=
  List.range' 0 ((maxFrames + motion_sample_interval - 1) / motion_sample_interval)
    motion_sample_interval

/-- A stationary segment of the response (source fields `start` and `end`;
`end` is a Lean keyword, rendered `stop`). -/
structure MotionSeg where
  start : Nat
  stop : Nat
deriving DecidableEq, Repr

/-- The segment-scan loop of `analyze_motion` (api.py:2015-2029) over the
sampled `(frame, motion)` score list: a below-threshold score opens a run
(keeping the earliest start), a score at or above the threshold closes it,
emitting `{start, end}` when `(end - start) / fps` reaches the minimum
duration.  Returns the emitted segments and the still-open start, if any. -/
def motionScan (thr fps minDur : ℚ) :
    Option Nat → List (Nat × ℚ) → List MotionSeg × Option Nat
  | st, [] => ([], st)
  | st, (f, m) :: rest =>
    if m < thr then
      motionScan thr fps minDur (some (st.getD f)) rest
    else
      match st with
      | none => motionScan thr fps minDur none rest
      | some s =>
        let r := motionScan thr fps minDur none rest
        (if minDur ≤ ((f : ℚ) - (s : ℚ)) / fps then ⟨s, f⟩ :: r.1 else r.1, r.2)

/-- `analyze_motion`'s segment detection (api.py:2015-2035): the scan over the
sampled scores followed by the trailing-run handling, which closes a run still
open at the end of the list at the last sampled frame
(`motion_scores[-1]['frame']`). -/
def analyze_motion_segments (thr fps minDur : ℚ)
    (scores : List (Nat × ℚ)) : List MotionSeg :=
  match (motionScan thr fps minDur none scores).2 with
  | none => (motionScan thr fps minDur none scores).1
  | some s =>
    match scores.getLast? with
    | some last =>
      if minDur ≤ ((last.1 : ℚ) - (s : ℚ)) / fps then
        (motionScan thr fps minDur none scores).1 ++ [⟨s, last.1⟩]
      else (motionScan thr fps minDur none scores).1
    | none => (motionScan thr fps minDur none scores).1

/-! ## Helper lemmas -/

theorem tryFallbacks_of_all_none {Frame : Type} (decode : Nat → Option Frame) :
    ∀ l : List Nat, (∀ j ∈ l, decode j = none) → tryFallbacks decode l = none := by
  intro l
  induction l with
  | nil => intro _; rfl
  | cons i rest ih =>
    intro h
    have hi : decode i = none := h i (by simp)
    simp only [tryFallbacks, hi]
    exact ih fun j hj => h j (by simp [hj])

theorem tryFallbacks_first {Frame : Type} (decode : Nat → Option Frame) :
    ∀ (pre : List Nat) (i : Nat) (post : List Nat) (fr : Frame),
      (∀ j ∈ pre, decode j = none) → decode i = some fr →
      tryFallbacks decode (pre ++ i :: post) = some fr := by
  intro pre
  induction pre with
  | nil =>
    intro i post fr _ hi
    simp only [List.nil_append, tryFallbacks, hi]
  | cons a rest ih =>
    intro i post fr hpre hi
    have ha : decode a = none := hpre a (by simp)
    simp only [List.cons_append, tryFallbacks, ha]
    exact ih i post fr (fun j hj => hpre j (by simp [hj])) hi

/-! ## C7: fallback recovery in the frame accessor -/

/-- C7: for a validated frame request whose decode fails, the accessor with a
requested index below 200 retries the fallback indices 10, 30, 50, 100, 150,
200 in order and returns the first that decodes; with index 200 or more, or
when every fallback also fails, the request fails with the frame-decode
error. -/
theorem frame_fallback_recovery {Frame : Type} (total : Nat)
    (decode : Nat → Option Frame) (f : Int)
    (hlo : 0 ≤ f) (hhi : f < (total : Int)) (hfail : decode f.toNat = none) :
    (200 ≤ f.toNat → get_video_frame total decode f = .error .decodeError)
    ∧ (f.toNat < 200 →
        ∀ (pre : List Nat) (i : Nat) (post : List Nat) (fr : Frame),
          fallbackIndices = pre ++ i :: post →
          (∀ j ∈ pre, decode j = none) → decode i = some fr →
          get_video_frame total decode f = .ok fr)
    ∧ (f.toNat < 200 → (∀ j ∈ fallbackIndices, decode j = none) →
        get_video_frame total decode f = .error .decodeError) := by
  have hrange : ¬(f < 0 ∨ (total : Int) ≤ f) := by
    push_neg
    exact ⟨hlo, hhi⟩
  refine ⟨fun h200 => ?_, fun h200 pre i post fr hsplit hpre hi => ?_,
    fun h200 hnone => ?_⟩
  · simp only [get_video_frame, if_neg hrange, hfail]
    rw [if_neg (by omega)]
  · simp only [get_video_frame, if_neg hrange, hfail]
    rw [if_pos h200, hsplit, tryFallbacks_first decode pre i post fr hpre hi]
  · simp only [get_video_frame, if_neg hrange, hfail]
    rw [if_pos h200, tryFallbacks_of_all_none decode fallbackIndices hnone]

/-- Decoder of the spec's fallback scenario: every frame of the video is
undecodable except frame 30. -/
def onlyFrame30 : Nat → Option Nat :=
  fun i => if i = 30 then some 777 else none

/-- C7 witness: requesting frame 0 of a 1000-frame video whose only decodable
frame is frame 30 returns frame 30's content; requesting frame 500 fails. -/
theorem frame_fallback_recovery_witness :
    get_video_frame 1000 onlyFrame30 0 = .ok 777
    ∧ get_video_frame 1000 onlyFrame30 500 = .error .decodeError := by
  constructor
  · exact (frame_fallback_recovery 1000 onlyFrame30 0 (by decide) (by decide)
      (by decide)).2.1 (by decide) [10] 30 [50, 100, 150, 200] 777 rfl
      (by decide) (by decide)
  · exact (frame_fallback_recovery 1000 onlyFrame30 500 (by decide) (by decide)
      (by decide)).1 (by decide)

/-! ## C8: background-dominant crop yields no labeled region -/

/-- C8: when the predicted crop mask contains only background pixels, the
box-inference response carries the background dominant class and an empty
polygon — no labeled defect region is produced. -/
theorem background_crop_no_detection (predicted : List Nat)
    (extractPolygon : Nat → List PPoint)
    (h : ∀ p ∈ predicted, p = 0) :
    (run_inference_on_box predicted extractPolygon).polygon = []
    ∧ (run_inference_on_box predicted extractPolygon).dominant_class = 0
    ∧ (run_inference_on_box predicted extractPolygon).dominant_frac = 1 := by
  have hnil : predicted.filter (· ≠ 0) = [] := by
    rw [List.filter_eq_nil_iff]
    intro a ha
    simp [h a ha]
  unfold run_inference_on_box
  rw [hnil]
  simp

/-- C8 witness: a 2×2 all-background crop produces an empty polygon even when
the contour extractor would return points for any class it was asked about. -/
theorem background_crop_no_detection_witness :
    (run_inference_on_box [0, 0, 0, 0] (fun _ => [⟨5, 5⟩])).polygon = []
    ∧ (run_inference_on_box [0, 0, 0, 0] (fun _ => [⟨5, 5⟩])).dominant_class = 0 := by
  have h := background_crop_no_detection [0, 0, 0, 0] (fun _ => [⟨5, 5⟩])
    (by decide)
  exact ⟨h.1, h.2.1⟩

/-! ## Job-runner loop lemmas -/

theorem inferLoop_total_frames (mt : ModelType) (meta : Nat) (c? : Option Nat) :
    ∀ (rem : List FrameOut) (k : Nat) (job : Job),
      (inferLoop mt meta c? k rem job).1.total_frames = job.total_frames := by
  intro rem
  induction rem with
  | nil =>
    intro k job
    by_cases hc : cancelSeen c? k = true <;>
      simp only [inferLoop, hc, if_true, if_false, Bool.false_eq_true]
  | cons f rest ih =>
    intro k job
    by_cases hc : cancelSeen c? k = true
    · simp only [inferLoop, hc, if_true]
    · by_cases hm : meta = 0
      · simp only [inferLoop, hc, hm, if_true, if_false, Bool.false_eq_true]
      · simp only [inferLoop, hc, hm, if_false, Bool.false_eq_true]
        exact ih (k + 1) _

theorem inferLoop_none_status (mt : ModelType) (meta : Nat) (c? : Option Nat) :
    ∀ (rem : List FrameOut) (k : Nat) (job : Job),
      (inferLoop mt meta c? k rem job).2.1 = none →
      (inferLoop mt meta c? k rem job).1.status = .cancelled
      ∨ (inferLoop mt meta c? k rem job).1.status = .failed := by
  intro rem
  induction rem with
  | nil =>
    intro k job h
    by_cases hc : cancelSeen c? k = true
    · simp [inferLoop, hc]
    · simp only [inferLoop, hc, if_false, Bool.false_eq_true] at h
      exact Option.noConfusion h
  | cons f rest ih =>
    intro k job h
    by_cases hc : cancelSeen c? k = true
    · simp [inferLoop, hc]
    · by_cases hm : meta = 0
      · simp [inferLoop, hc, hm]
      · simp only [inferLoop, hc, hm, if_false, Bool.false_eq_true,
          Option.map_eq_none'] at h ⊢
        exact ih (k + 1) _ h

theorem inferLoop_getLast (mt : ModelType) (meta : Nat) (c? : Option Nat) :
    ∀ (rem : List FrameOut) (k : Nat) (job : Job),
      (job :: (inferLoop mt meta c? k rem job).2.2).getLast?
        = some (inferLoop mt meta c? k rem job).1 := by
  intro rem
  induction rem with
  | nil =>
    intro k job
    by_cases hc : cancelSeen c? k = true <;>
      simp only [inferLoop, hc, if_true, if_false, Bool.false_eq_true] <;> rfl
  | cons f rest ih =>
    intro k job
    by_cases hc : cancelSeen c? k = true
    · simp only [inferLoop, hc, if_true]
      rfl
    · by_cases hm : meta = 0
      · simp only [inferLoop, hc, hm, if_true, if_false, Bool.false_eq_true]
        rfl
      · simp only [inferLoop, hc, hm, if_false, Bool.false_eq_true]
        rw [List.getLast?_cons_cons]
        exact ih (k + 1) _

theorem cancelSeen_mono (c? : Option Nat) {k l : Nat} (h : k ≤ l)
    (hs : cancelSeen c? k = true) : cancelSeen c? l = true := by
  cases c? with
  | none => simp [cancelSeen] at hs
  | some c =>
    simp only [cancelSeen, decide_eq_true_eq] at hs ⊢
    omega

theorem inferLoop_none_of_cancel (mt : ModelType) (meta : Nat) (c? : Option Nat) :
    ∀ (rem : List FrameOut) (k : Nat) (job : Job),
      cancelSeen c? (k + rem.length) = true →
      (inferLoop mt meta c? k rem job).2.1 = none := by
  intro rem
  induction rem with
  | nil =>
    intro k job h
    simp only [List.length_nil, Nat.add_zero] at h
    simp only [inferLoop, h, if_true]
  | cons f rest ih =>
    intro k job h
    by_cases hc : cancelSeen c? k = true
    · simp only [inferLoop, hc, if_true]
    · by_cases hm : meta = 0
      · simp only [inferLoop, hc, hm, if_true, if_false, Bool.false_eq_true]
      · simp only [inferLoop, hc, hm, if_false, Bool.false_eq_true,
          Option.map_eq_none']
        exact ih (k + 1) _ (by
          have hlen : k + (f :: rest).length = k + 1 + rest.length := by
            simp only [List.length_cons]
            omega
          exact hlen ▸ h)

theorem inferLoop_cancelled_of_cancel (mt : ModelType) (meta : Nat)
    (c? : Option Nat) (hm : meta ≠ 0) :
    ∀ (rem : List FrameOut) (k : Nat) (job : Job),
      cancelSeen c? (k + rem.length) = true →
      (inferLoop mt meta c? k rem job).1.status = .cancelled := by
  intro rem
  induction rem with
  | nil =>
    intro k job h
    simp only [List.length_nil, Nat.add_zero] at h
    simp only [inferLoop, h, if_true]
  | cons f rest ih =>
    intro k job h
    by_cases hc : cancelSeen c? k = true
    · simp only [inferLoop, hc, if_true]
    · simp only [inferLoop, hc, hm, if_false, Bool.false_eq_true]
      exact ih (k + 1) _ (by
          have hlen : k + (f :: rest).length = k + 1 + rest.length := by
            simp only [List.length_cons]
            omega
          exact hlen ▸ h)

theorem inferLoop_records (mt : ModelType) (meta : Nat) (c? : Option Nat) :
    ∀ (rem : List FrameOut) (k : Nat) (job : Job) (l : List FrameRecord),
      (inferLoop mt meta c? k rem job).2.1 = some l →
      l = recordsFrom mt k rem := by
  intro rem
  induction rem with
  | nil =>
    intro k job l h
    by_cases hc : cancelSeen c? k = true
    · simp only [inferLoop, hc, if_true] at h
      exact Option.noConfusion h
    · simp only [inferLoop, hc, if_false, Bool.false_eq_true,
        Option.some.injEq] at h
      rw [← h]
      rfl
  | cons f rest ih =>
    intro k job l h
    by_cases hc : cancelSeen c? k = true
    · simp only [inferLoop, hc, if_true] at h
      exact Option.noConfusion h
    · by_cases hm : meta = 0
      · simp only [inferLoop, hc, hm, if_true, if_false, Bool.false_eq_true] at h
        exact Option.noConfusion h
      · simp only [inferLoop, hc, hm, if_false, Bool.false_eq_true,
          Option.map_eq_some'] at h
        obtain ⟨l', hl', rfl⟩ := h
        rw [ih (k + 1) _ l' hl']
        rfl

theorem recordsFrom_length (mt : ModelType) :
    ∀ (l : List FrameOut) (k : Nat), (recordsFrom mt k l).length = l.length := by
  intro l
  induction l with
  | nil => intro k; rfl
  | cons f rest ih =>
    intro k
    simp only [recordsFrom, List.length_cons, ih (k + 1)]

theorem recordsFrom_frame_numbers (mt : ModelType) :
    ∀ (l : List FrameOut) (k : Nat),
      (recordsFrom mt k l).map FrameRecord.frame_number = List.range' k l.length := by
  intro l
  induction l with
  | nil => intro k; rfl
  | cons f rest ih =>
    intro k
    simp only [recordsFrom, List.map_cons, ih (k + 1), List.length_cons,
      List.range'_succ]
    cases mt <;> rfl

theorem recordsFrom_payload (mt : ModelType) :
    ∀ (l : List FrameOut) (k : Nat) (r : FrameRecord), r ∈ recordsFrom mt k l →
      (mt = .yolo → ∃ ds, r.payload = .detections ds)
      ∧ (mt = .segformer → ∃ cs, r.payload = FramePayload.classes cs) := by
  intro l
  induction l with
  | nil => intro k r h; simp [recordsFrom] at h
  | cons f rest ih =>
    intro k r h
    simp only [recordsFrom, List.mem_cons] at h
    rcases h with h | h
    · subst h
      cases mt with
      | yolo =>
        constructor
        · intro _
          exact ⟨f.dets, rfl⟩
        · intro hx
          exact absurd hx (by simp)
      | segformer =>
        constructor
        · intro hx
          exact absurd hx (by simp)
        · intro _
          exact ⟨f.cls, rfl⟩
    · exact ih (k + 1) r h

/-! ## C1: behaviour of operations after a terminal state -/

/-- A concrete registry entry already in the terminal state `cancelled`. -/
def cancelledJob : Job :=
  { initialJob "video.mp4" "out" with status := .cancelled }

/-- C1 counterexample: `cancel_inference` against a job whose status is the
terminal `cancelled` mutates it — the status moves to `cancelling` and
`cancel_requested` is set, because the endpoint only rejects status
`completed`. -/
theorem cancel_on_cancelled_counterexample :
    cancelledJob.status = .cancelled
    ∧ (cancel_inference cancelledJob).1.status = .cancelling
    ∧ (cancel_inference cancelledJob).1.status ≠ cancelledJob.status
    ∧ (cancel_inference cancelledJob).1.cancel_requested = true := by
  refine ⟨rfl, rfl, ?_, rfl⟩
  decide

/-- C1 (amended): a job observed `completed` is frozen — no sequence of
status polls and cancellation requests changes any field, the cancellation
being rejected with `AlreadyCompleted`; a cancellation request against a
`cancelled` or `failed` job, however, does set `cancel_requested` and moves
the status to `cancelling`; and the job runner itself ends every run in a
terminal status, its final registry write being exactly the state it leaves
behind. -/
theorem cancel_after_terminal_amended :
    (∀ (j : Job) (ops : List ApiOp), j.status = .completed → applyOps j ops = j)
    ∧ (∀ j : Job, j.status = .completed →
        (cancel_inference j).2 = .alreadyCompleted)
    ∧ (∀ j : Job, j.status = .cancelled ∨ j.status = .failed →
        (cancel_inference j).1.cancel_requested = true
        ∧ (cancel_inference j).1.status = .cancelling)
    ∧ (∀ inp : RunInput,
        (process_video_inference inp).job.status.isTerminal = true
        ∧ (process_video_inference inp).trace.getLast?
            = some (process_video_inference inp).job) := by
  have hfreeze : ∀ (ops : List ApiOp) (j : Job), j.status = .completed →
      applyOps j ops = j := by
    intro ops
    induction ops with
    | nil => intro j _; rfl
    | cons op rest ih =>
      intro j hj
      have hstep : applyOp j op = j := by
        cases op with
        | poll => rfl
        | cancel => simp [applyOp, cancel_inference, hj]
      show applyOps (applyOp j op) rest = j
      rw [hstep]
      exact ih j hj
  refine ⟨fun j ops hj => hfreeze ops j hj, ?_, ?_, ?_⟩
  · intro j hj
    simp [cancel_inference, hj]
  · intro j hj
    have hne : ¬j.status = .completed := by
      rcases hj with h | h <;> rw [h] <;> decide
    exact ⟨by simp [cancel_inference, hne], by simp [cancel_inference, hne]⟩
  · intro inp
    have hlast : ∀ (a : Job) (l : List Job) (b : Job),
        (a :: (l ++ [b])).getLast? = some b := by
      intro a l b
      rw [show a :: (l ++ [b]) = (a :: l) ++ [b] from rfl]
      exact List.getLast?_concat _
    unfold process_video_inference
    rcases hdoc : (loopRun inp).2.1 with _ | recs
    · rcases inferLoop_none_status inp.model_type inp.metaTotal inp.cancelAt
          inp.frames 0 (startJob inp) hdoc with hs | hs <;>
        simp only [hdoc] <;>
        refine ⟨by rw [show (loopRun inp).1.status = _ from hs]; rfl, ?_⟩ <;>
        · rw [List.getLast?_cons_cons]
          exact inferLoop_getLast _ _ _ _ _ _
    · simp only [hdoc]
      exact ⟨rfl, by rw [List.getLast?_cons_cons]; exact hlast _ _ _⟩

/-- C1 witness: a completed job survives a cancel/poll/cancel sequence
unchanged, and a cancellation against a failed job moves it to `cancelling`. -/
theorem cancel_after_terminal_amended_witness :
    applyOps { initialJob "v" "o" with status := .completed }
        [.cancel, .poll, .cancel]
      = { initialJob "v" "o" with status := .completed }
    ∧ (cancel_inference { initialJob "v" "o" with status := .failed }).1.status
        = .cancelling := by
  exact ⟨cancel_after_terminal_amended.1 _ _ rfl,
    (cancel_after_terminal_amended.2.2.1 _ (Or.inr rfl)).2⟩

/-! ## C3: zero-frame container metadata -/

/-- A job input whose container frame-count metadata is 0 while `n` frames
are in fact sequentially decodable. -/
def zeroMetaInput (n : Nat) : RunInput where
  video_path := "video.mp4"
  output_path := "out"
  model_type := .segformer
  metaTotal := 0
  fps := 30
  width := 64
  height := 48
  frames := List.replicate n ⟨[], [0]⟩
  cancelAt := none

/-- C3: evaluating the runner at zero container metadata.  With one decodable
frame the progress computation `(frame_count / total_frames) * 100` raises
`ZeroDivisionError`, which the runner's handler records as a `failed` job —
there is no `EmptyVideo` fail-fast and the job was created and run.  With
zero decodable frames the job even completes, writing an empty result
document. -/
theorem empty_video_divide_by_zero :
    (process_video_inference (zeroMetaInput 1)).job.status = .failed
    ∧ (process_video_inference (zeroMetaInput 1)).job.error
        = some "division by zero"
    ∧ (process_video_inference (zeroMetaInput 1)).doc = none
    ∧ (process_video_inference (zeroMetaInput 0)).job.status = .completed
    ∧ ((process_video_inference (zeroMetaInput 0)).doc.map ResultDoc.results)
        = some [] := by
  refine ⟨rfl, rfl, rfl, rfl, rfl⟩

/-! ## C2: cancellation effectiveness -/

/-- C2 (amended): when the cancellation flag is set by the time of some
top-of-loop check (including the check right after the final decodable frame
was processed), no result document is ever written; and provided the
container frame-count metadata is nonzero — so that no division error can
pre-empt the next check — the runner reaches the terminal status
`cancelled`. -/
theorem cancel_effectiveness_amended (inp : RunInput) (c : Nat)
    (hc : inp.cancelAt = some c) (hle : c ≤ inp.frames.length) :
    (process_video_inference inp).doc = none
    ∧ (inp.metaTotal ≠ 0 →
        (process_video_inference inp).job.status = .cancelled) := by
  have hseen : cancelSeen inp.cancelAt (0 + inp.frames.length) = true := by
    rw [hc]
    simp only [cancelSeen, decide_eq_true_eq]
    omega
  have hnone : (loopRun inp).2.1 = none :=
    inferLoop_none_of_cancel inp.model_type inp.metaTotal inp.cancelAt
      inp.frames 0 (startJob inp) hseen
  unfold process_video_inference
  simp only [hnone]
  refine ⟨trivial, fun hm => ?_⟩
  exact inferLoop_cancelled_of_cancel inp.model_type inp.metaTotal inp.cancelAt
    hm inp.frames 0 (startJob inp) hseen

/-- A job whose container metadata is 0 but with one decodable frame, with
the cancellation flag raised while that frame is being processed. -/
def zeroMetaCancelInput : RunInput where
  video_path := "video.mp4"
  output_path := "out"
  model_type := .segformer
  metaTotal := 0
  fps := 30
  width := 64
  height := 48
  frames := [⟨[], [0]⟩]
  cancelAt := some 1

/-- C2 counterexample: with zero container metadata, the division error hits
during the frame processed before the next cancellation check, so the job
ends `failed`, not `cancelled`, even though `cancel_requested` was set while
it was running (no document is written, though). -/
theorem cancel_effectiveness_counterexample :
    zeroMetaCancelInput.cancelAt = some 1
    ∧ 1 ≤ zeroMetaCancelInput.frames.length
    ∧ (process_video_inference zeroMetaCancelInput).job.status = .failed
    ∧ (process_video_inference zeroMetaCancelInput).job.status ≠ .cancelled
    ∧ (process_video_inference zeroMetaCancelInput).doc = none := by
  refine ⟨rfl, by decide, rfl, ?_, rfl⟩
  rw [show (process_video_inference zeroMetaCancelInput).job.status
    = .failed from rfl]
  decide

/-- A 3-frame job whose cancellation flag is raised during processing of the
final frame (it is observed at check 3, after the last frame but before the
loop would exhaust). -/
def lateCancelInput : RunInput where
  video_path := "video.mp4"
  output_path := "out"
  model_type := .segformer
  metaTotal := 3
  fps := 30
  width := 64
  height := 48
  frames := [⟨[], [0]⟩, ⟨[], [0]⟩, ⟨[], [0]⟩]
  cancelAt := some 3

/-- C2 witness: the final-frame cancellation is still honoured — the job ends
`cancelled` and no result document exists. -/
theorem cancel_effectiveness_amended_witness :
    (process_video_inference lateCancelInput).doc = none
    ∧ (process_video_inference lateCancelInput).job.status = .cancelled := by
  have h := cancel_effectiveness_amended lateCancelInput 3 rfl (by decide)
  exact ⟨h.1, h.2 (by decide)⟩

/-! ## C5: result-document completeness -/

/-- C5: whenever a run writes a result document (i.e. completes normally on a
video with `N = inp.frames.length` sequentially decodable frames), the
document's `results` array has exactly `N` entries whose `frame_number`
values form the contiguous ascending sequence `0, 1, ..., N-1`. -/
theorem result_doc_completeness (inp : RunInput) (d : ResultDoc)
    (h : (process_video_inference inp).doc = some d) :
    d.results.length = inp.frames.length
    ∧ d.results.map FrameRecord.frame_number = List.range inp.frames.length := by
  unfold process_video_inference at h
  rcases hdoc : (loopRun inp).2.1 with _ | recs
  · rw [hdoc] at h
    exact Option.noConfusion h
  · rw [hdoc] at h
    simp only [Option.some.injEq] at h
    have hrecs : recs = recordsFrom inp.model_type 0 inp.frames :=
      inferLoop_records inp.model_type inp.metaTotal inp.cancelAt
        inp.frames 0 (startJob inp) recs hdoc
    have hres : d.results = recs := by rw [← h]; rfl
    rw [hres, hrecs]
    exact ⟨recordsFrom_length _ _ _, by
      rw [recordsFrom_frame_numbers, List.range_eq_range']⟩

/-- A plain 3-frame SegFormer job with accurate metadata. -/
def threeFrameInput : RunInput where
  video_path := "video.mp4"
  output_path := "out"
  model_type := .segformer
  metaTotal := 3
  fps := 30
  width := 64
  height := 48
  frames := [⟨[], [0]⟩, ⟨[], [0, 1]⟩, ⟨[], [0]⟩]
  cancelAt := none

/-- C5 witness: the 3-frame run's document lists frames 0, 1, 2. -/
theorem result_doc_completeness_witness :
    ∃ d, (process_video_inference threeFrameInput).doc = some d
      ∧ d.results.length = 3
      ∧ d.results.map FrameRecord.frame_number = [0, 1, 2] := by
  refine ⟨_, rfl, ?_⟩
  have h := result_doc_completeness threeFrameInput _ rfl
  exact ⟨h.1, by rw [h.2]; rfl⟩

/-! ## C10: document total_frames is the decoded count -/

/-- C10: the written document's `total_frames` is the loop's decoded frame
count (the length of `results`), while the registry entry keeps the container
metadata; when the metadata differs from the decodable count the two
disagree. -/
theorem doc_total_frames_decoded (inp : RunInput) (d : ResultDoc)
    (h : (process_video_inference inp).doc = some d) :
    d.total_frames = d.results.length
    ∧ d.results.length = inp.frames.length
    ∧ (process_video_inference inp).job.total_frames = inp.metaTotal
    ∧ (inp.frames.length ≠ inp.metaTotal →
        d.total_frames ≠ (process_video_inference inp).job.total_frames) := by
  have hlen := (result_doc_completeness inp d h).1
  have hreg : (process_video_inference inp).job.total_frames = inp.metaTotal := by
    unfold process_video_inference
    rcases hdoc : (loopRun inp).2.1 with _ | recs <;>
      simp only [hdoc] <;>
      exact inferLoop_total_frames inp.model_type inp.metaTotal inp.cancelAt
        inp.frames 0 (startJob inp)
  have hdoctot : d.total_frames = d.results.length := by
    unfold process_video_inference at h
    rcases hdoc : (loopRun inp).2.1 with _ | recs
    · rw [hdoc] at h
      exact Option.noConfusion h
    · rw [hdoc] at h
      simp only [Option.some.injEq] at h
      rw [← h]
      rfl
  refine ⟨hdoctot, hlen, hreg, fun hne => ?_⟩
  rw [hdoctot, hlen, hreg]
  exact hne

/-- A 3-frame job whose container metadata overstates the decodable count. -/
def overstatedMetaInput : RunInput where
  video_path := "video.mp4"
  output_path := "out"
  model_type := .segformer
  metaTotal := 5
  fps := 30
  width := 64
  height := 48
  frames := [⟨[], [0]⟩, ⟨[], [0]⟩, ⟨[], [0]⟩]
  cancelAt := none

/-- C10 witness: metadata 5, three decodable frames — the document records
`total_frames = 3` while the registry entry still holds 5. -/
theorem doc_total_frames_decoded_witness :
    ∃ d, (process_video_inference overstatedMetaInput).doc = some d
      ∧ d.total_frames = 3
      ∧ (process_video_inference overstatedMetaInput).job.total_frames = 5
      ∧ d.total_frames
          ≠ (process_video_inference overstatedMetaInput).job.total_frames := by
  refine ⟨_, rfl, ?_⟩
  have h := doc_total_frames_decoded overstatedMetaInput _ rfl
  exact ⟨by rw [h.1, h.2.1]; rfl, h.2.2.1, h.2.2.2 (by decide)⟩

/-! ## C4: result-document shape -/

/-- C4 (amended): a result document exists exactly for runs that finish
`completed`, carrying `{video_path, total_frames, fps, width, height,
model_type, results}` with `total_frames` the length of `results`; every
result entry has a `frame_number`, and its payload is a `detections` list in
yolo mode but a `classes` list (the mask's class ids) in segformer mode. -/
theorem result_doc_shape_amended (inp : RunInput) :
    ((process_video_inference inp).job.status = .completed ↔
      ∃ d, (process_video_inference inp).doc = some d)
    ∧ ∀ d, (process_video_inference inp).doc = some d →
        d.video_path = inp.video_path ∧ d.fps = inp.fps ∧ d.width = inp.width
        ∧ d.height = inp.height ∧ d.model_type = inp.model_type
        ∧ d.total_frames = d.results.length
        ∧ ∀ r ∈ d.results,
            (inp.model_type = .yolo → ∃ ds, r.payload = .detections ds)
            ∧ (inp.model_type = .segformer →
                ∃ cs, r.payload = FramePayload.classes cs) := by
  unfold process_video_inference
  rcases hdoc : (loopRun inp).2.1 with _ | recs
  · simp only [hdoc]
    constructor
    · constructor
      · intro hs
        rcases inferLoop_none_status inp.model_type inp.metaTotal inp.cancelAt
            inp.frames 0 (startJob inp) hdoc with hs' | hs' <;>
          · exfalso
            rw [show (loopRun inp).1.status = _ from hs'] at hs
            exact Status.noConfusion hs
      · rintro ⟨d, hd⟩
        exact Option.noConfusion hd
    · intro d hd
      exact Option.noConfusion hd
  · simp only [hdoc]
    refine ⟨⟨fun _ => ⟨mkResultDoc inp recs, rfl⟩, fun _ => rfl⟩, ?_⟩
    intro d hd
    simp only [Option.some.injEq] at hd
    have hrecs : recs = recordsFrom inp.model_type 0 inp.frames :=
      inferLoop_records inp.model_type inp.metaTotal inp.cancelAt
        inp.frames 0 (startJob inp) recs hdoc
    subst hd
    refine ⟨rfl, rfl, rfl, rfl, rfl, rfl, ?_⟩
    intro r hr
    rw [show (mkResultDoc inp recs).results = recs from rfl, hrecs] at hr
    exact recordsFrom_payload inp.model_type inp.frames 0 r hr

/-- A 1-frame SegFormer job used to exhibit the segformer record shape. -/
def segShapeInput : RunInput where
  video_path := "video.mp4"
  output_path := "out"
  model_type := .segformer
  metaTotal := 1
  fps := 30
  width := 64
  height := 48
  frames := [⟨[], [0, 1]⟩]
  cancelAt := none

/-- C4 counterexample: a completed segformer job's document has a result
entry carrying no `detections` list at all — its payload is the `classes`
list — so the claimed shape `{frame_number, detections[]}` fails in segformer
mode. -/
theorem result_doc_segformer_counterexample :
    (process_video_inference segShapeInput).job.status = .completed
    ∧ ∃ d, (process_video_inference segShapeInput).doc = some d
        ∧ ∃ r ∈ d.results,
            ∀ ds : List Detection, r.payload ≠ FramePayload.detections ds := by
  refine ⟨rfl, ⟨_, rfl, ⟨⟨0, .classes [0, 1]⟩, ?_, ?_⟩⟩⟩
  · decide
  · intro ds h
    exact FramePayload.noConfusion h

/-- A 1-frame YOLO job with one detection. -/
def yoloShapeInput : RunInput where
  video_path := "video.mp4"
  output_path := "out"
  model_type := .yolo
  metaTotal := 1
  fps := 30
  width := 64
  height := 48
  frames := [⟨[⟨[1, 2, 3, 4], "rust", 1, 9/10⟩], []⟩]
  cancelAt := none

/-- C4 witness: the completed yolo job has a document whose fields follow the
claimed shape, with a detections-list payload in each record. -/
theorem result_doc_shape_amended_witness :
    ∃ d, (process_video_inference yoloShapeInput).doc = some d
      ∧ d.model_type = .yolo
      ∧ d.total_frames = d.results.length
      ∧ ∀ r ∈ d.results, ∃ ds, r.payload = FramePayload.detections ds := by
  obtain ⟨d, hd⟩ := (result_doc_shape_amended yoloShapeInput).1.mp rfl
  have hs := (result_doc_shape_amended yoloShapeInput).2 d hd
  exact ⟨d, hd, hs.2.2.2.2.1, hs.2.2.2.2.2.1,
    fun r hr => (hs.2.2.2.2.2.2 r hr).1 rfl⟩

/-! ## C6: monotonicity of status-poll snapshots -/

/-- Snapshot order on the `current_frame` field. -/
def cfLe (a b : Job) : Prop := a.current_frame ≤ b.current_frame

/-- Snapshot order on the `progress` field. -/
def progLe (a b : Job) : Prop := a.progress ≤ b.progress

instance : IsTrans Job cfLe := ⟨fun _ _ _ => Nat.le_trans⟩

instance : IsTrans Job progLe := ⟨fun _ _ _ => le_trans⟩

instance : DecidableRel cfLe := fun a b =>
  inferInstanceAs (Decidable (a.current_frame ≤ b.current_frame))

instance : DecidableRel progLe := fun a b =>
  inferInstanceAs (Decidable (a.progress ≤ b.progress))

theorem progFrac_mono {a b : ℕ} (m : ℕ) (hab : a ≤ b) :
    (a : ℚ) / (m : ℚ) * 100 ≤ (b : ℚ) / (m : ℚ) * 100 := by
  rcases Nat.eq_zero_or_pos m with hm | hm
  · subst hm
    simp
  · have hm' : (0 : ℚ) < m := by exact_mod_cast hm
    have h1 : (a : ℚ) / m ≤ (b : ℚ) / m := by
      rw [div_le_div_iff_of_pos_right hm']
      exact_mod_cast hab
    exact mul_le_mul_of_nonneg_right h1 (by norm_num)

theorem progFrac_cap {N m : ℕ} (h : N ≤ m) : (N : ℚ) / (m : ℚ) * 100 ≤ 100 := by
  rcases Nat.eq_zero_or_pos m with hm | hm
  · subst hm
    have h0 : N = 0 := Nat.le_zero.mp h
    subst h0
    simp
  · have hm' : (0 : ℚ) < m := by exact_mod_cast hm
    have h1 : (N : ℚ) / m ≤ 1 := by
      rw [div_le_one hm']
      exact_mod_cast h
    calc (N : ℚ) / m * 100 ≤ 1 * 100 :=
          mul_le_mul_of_nonneg_right h1 (by norm_num)
      _ = 100 := by norm_num

theorem inferLoop_cf_chain (mt : ModelType) (meta : Nat) (c? : Option Nat) :
    ∀ (rem : List FrameOut) (k : Nat) (job : Job), job.current_frame = k →
      List.Chain' cfLe (job :: (inferLoop mt meta c? k rem job).2.2) := by
  intro rem
  induction rem with
  | nil =>
    intro k job hk
    by_cases hc : cancelSeen c? k = true
    · simp only [inferLoop, hc, if_true]
      exact List.chain'_cons.mpr ⟨le_refl _, List.chain'_singleton _⟩
    · simp only [inferLoop, hc, if_false, Bool.false_eq_true]
      exact List.chain'_singleton _
  | cons f rest ih =>
    intro k job hk
    by_cases hc : cancelSeen c? k = true
    · simp only [inferLoop, hc, if_true]
      exact List.chain'_cons.mpr ⟨le_refl _, List.chain'_singleton _⟩
    · by_cases hm : meta = 0
      · simp only [inferLoop, hc, hm, if_true, if_false, Bool.false_eq_true]
        exact List.chain'_cons.mpr ⟨le_refl _, List.chain'_singleton _⟩
      · simp only [inferLoop, hc, hm, if_false, Bool.false_eq_true]
        refine List.chain'_cons.mpr ⟨?_, ih (k + 1) _ rfl⟩
        show job.current_frame ≤ k + 1
        omega

theorem inferLoop_prog_chain (mt : ModelType) (meta : Nat) (c? : Option Nat) :
    ∀ (rem : List FrameOut) (k : Nat) (job : Job),
      job.progress = (k : ℚ) / (meta : ℚ) * 100 →
      List.Chain' progLe (job :: (inferLoop mt meta c? k rem job).2.2)
      ∧ (inferLoop mt meta c? k rem job).1.progress
          ≤ ((k + rem.length : ℕ) : ℚ) / (meta : ℚ) * 100 := by
  intro rem
  induction rem with
  | nil =>
    intro k job hk
    by_cases hc : cancelSeen c? k = true
    · simp only [inferLoop, hc, if_true]
      refine ⟨List.chain'_cons.mpr ⟨le_refl _, List.chain'_singleton _⟩, ?_⟩
      show job.progress ≤ _
      rw [hk]
      exact progFrac_mono meta (Nat.le_add_right _ _)
    · simp only [inferLoop, hc, if_false, Bool.false_eq_true]
      refine ⟨List.chain'_singleton _, ?_⟩
      show job.progress ≤ _
      rw [hk]
      exact progFrac_mono meta (Nat.le_add_right _ _)
  | cons f rest ih =>
    intro k job hk
    by_cases hc : cancelSeen c? k = true
    · simp only [inferLoop, hc, if_true]
      refine ⟨List.chain'_cons.mpr ⟨le_refl _, List.chain'_singleton _⟩, ?_⟩
      show job.progress ≤ _
      rw [hk]
      exact progFrac_mono meta (Nat.le_add_right _ _)
    · by_cases hm : meta = 0
      · subst hm
        simp only [inferLoop, hc, if_false, Bool.false_eq_true, if_true]
        refine ⟨List.chain'_cons.mpr ⟨le_refl _, List.chain'_singleton _⟩, ?_⟩
        show job.progress ≤ _
        rw [hk]
        exact progFrac_mono 0 (Nat.le_add_right _ _)
      · simp only [inferLoop, hc, hm, if_false, Bool.false_eq_true]
        have hj : (({ job with
            current_frame := k + 1,
            progress := ((k : ℚ) + 1) / (meta : ℚ) * 100,
            latest_frame := if k % 10 = 0 then some k
              else job.latest_frame }) : Job).progress
            = ((k + 1 : ℕ) : ℚ) / (meta : ℚ) * 100 := by
          push_cast
          rfl
        obtain ⟨ihc, ihb⟩ := ih (k + 1) _ hj
        refine ⟨List.chain'_cons.mpr ⟨?_, ihc⟩, ?_⟩
        · show job.progress ≤ _
          rw [hk, hj]
          exact progFrac_mono meta (Nat.le_succ k)
        · refine le_trans ihb (progFrac_mono meta ?_)
          simp only [List.length_cons]
          omega

/-- C6 (amended): over the chronological registry snapshots of any run,
`current_frame` never decreases; and provided the decodable frame count does
not exceed the container frame-count metadata, `progress` never decreases
either — when the metadata understates the decodable count, the loop's
progress exceeds 100 and the final completion update clamps it back down to
100, a decrease. -/
theorem progress_monotonicity_amended (inp : RunInput) :
    List.Pairwise cfLe (process_video_inference inp).trace
    ∧ (inp.frames.length ≤ inp.metaTotal →
        List.Pairwise progLe (process_video_inference inp).trace) := by
  have hcf0 : (startJob inp).current_frame = 0 := rfl
  have hpr0 : (startJob inp).progress
      = ((0 : ℕ) : ℚ) / (inp.metaTotal : ℚ) * 100 := by simp [startJob, initialJob]
  have hcfchain : List.Chain' cfLe (startJob inp :: (loopRun inp).2.2) :=
    inferLoop_cf_chain inp.model_type inp.metaTotal inp.cancelAt
      inp.frames 0 (startJob inp) hcf0
  have hprog : List.Chain' progLe (startJob inp :: (loopRun inp).2.2)
      ∧ (loopRun inp).1.progress
          ≤ ((0 + inp.frames.length : ℕ) : ℚ) / (inp.metaTotal : ℚ) * 100 :=
    inferLoop_prog_chain inp.model_type inp.metaTotal inp.cancelAt
      inp.frames 0 (startJob inp) hpr0
  have hlast : (startJob inp :: (loopRun inp).2.2).getLast?
      = some (loopRun inp).1 :=
    inferLoop_getLast inp.model_type inp.metaTotal inp.cancelAt
      inp.frames 0 (startJob inp)
  unfold process_video_inference
  rcases hdoc : (loopRun inp).2.1 with _ | recs
  · simp only [hdoc]
    constructor
    · rw [← List.chain'_iff_pairwise]
      exact List.chain'_cons.mpr ⟨le_refl _, hcfchain⟩
    · intro _
      rw [← List.chain'_iff_pairwise]
      exact List.chain'_cons.mpr ⟨le_of_eq rfl, hprog.1⟩
  · simp only [hdoc]
    constructor
    · rw [← List.chain'_iff_pairwise]
      refine List.chain'_cons.mpr ⟨le_refl _, ?_⟩
      rw [show startJob inp :: ((loopRun inp).2.2 ++ [finishJob inp])
        = (startJob inp :: (loopRun inp).2.2) ++ [finishJob inp] from rfl,
        List.chain'_append]
      refine ⟨hcfchain, List.chain'_singleton _, ?_⟩
      intro x hx y hy
      rw [hlast] at hx
      simp only [Option.mem_def, Option.some.injEq] at hx
      simp only [List.head?_cons, Option.mem_def, Option.some.injEq] at hy
      subst hx
      subst hy
      exact le_refl _
    · intro hbound
      rw [← List.chain'_iff_pairwise]
      refine List.chain'_cons.mpr ⟨le_of_eq rfl, ?_⟩
      rw [show startJob inp :: ((loopRun inp).2.2 ++ [finishJob inp])
        = (startJob inp :: (loopRun inp).2.2) ++ [finishJob inp] from rfl,
        List.chain'_append]
      refine ⟨hprog.1, List.chain'_singleton _, ?_⟩
      intro x hx y hy
      rw [hlast] at hx
      simp only [Option.mem_def, Option.some.injEq] at hx
      simp only [List.head?_cons, Option.mem_def, Option.some.injEq] at hy
      subst hx
      subst hy
      show (loopRun inp).1.progress ≤ (finishJob inp).progress
      rw [show (finishJob inp).progress = 100 from rfl]
      refine le_trans hprog.2 ?_
      simp only [Nat.zero_add]
      exact progFrac_cap hbound

/-- A 2-decodable-frame job whose container metadata claims just 1 frame. -/
def understatedMetaInput : RunInput where
  video_path := "video.mp4"
  output_path := "out"
  model_type := .segformer
  metaTotal := 1
  fps := 30
  width := 64
  height := 48
  frames := [⟨[], [0]⟩, ⟨[], [0]⟩]
  cancelAt := none

/-- C6 counterexample: with metadata 1 but two decodable frames, the
snapshots carry progress 0, 0, 100, 200 and then the completion update's 100
— a strict decrease between two sequential polls, refuting the claim. -/
theorem progress_monotonicity_counterexample :
    (process_video_inference understatedMetaInput).trace.map Job.progress
      = [0, 0, 100, 200, 100]
    ∧ ¬ List.Pairwise progLe (process_video_inference understatedMetaInput).trace := by
  have hmap : (process_video_inference understatedMetaInput).trace.map Job.progress
      = [0, 0, 100, 200, 100] := by
    simp [process_video_inference, loopRun, inferLoop, startJob, initialJob,
      finishJob, understatedMetaInput, cancelSeen, mkFrameRecord]
    norm_num
  refine ⟨hmap, fun hp => ?_⟩
  have hm : List.Pairwise (fun a b : ℚ => a ≤ b)
      ((process_video_inference understatedMetaInput).trace.map Job.progress) :=
    List.Pairwise.map Job.progress (fun a b h => h) hp
  rw [hmap] at hm
  norm_num [List.pairwise_cons] at hm

/-- C6 witness: with accurate metadata the 3-frame run's snapshots are
monotone in both `current_frame` and `progress`. -/
theorem progress_monotonicity_amended_witness :
    List.Pairwise cfLe (process_video_inference threeFrameInput).trace
    ∧ List.Pairwise progLe (process_video_inference threeFrameInput).trace :=
  ⟨(progress_monotonicity_amended threeFrameInput).1,
    (progress_monotonicity_amended threeFrameInput).2 (by decide)⟩

/-! ## C9: motion-segment scan lemmas -/

/-- The `end` frame of the segment a maximal below-threshold run starting at
`f0` with continuation `run` would produce: the frame of the first score at or
above the threshold after the run, or — when the run extends to the end of
the sampled list — the last sampled frame. -/
def motionStop (f0 : Nat) (run post : List (Nat × ℚ)) : Nat :=
  match post.head? with
  | some q => q.1
  | none =>
    match run.getLast? with
    | some q => q.1
    | none => f0

theorem motionScan_append (thr fps minDur : ℚ) :
    ∀ (l1 l2 : List (Nat × ℚ)) (st : Option Nat),
      motionScan thr fps minDur st (l1 ++ l2)
        = ((motionScan thr fps minDur st l1).1
            ++ (motionScan thr fps minDur
                (motionScan thr fps minDur st l1).2 l2).1,
           (motionScan thr fps minDur
              (motionScan thr fps minDur st l1).2 l2).2) := by
  intro l1
  induction l1 with
  | nil =>
    intro l2 st
    rfl
  | cons p rest ih =>
    intro l2 st
    obtain ⟨f, m⟩ := p
    by_cases hb : m < thr
    · simp only [List.cons_append, motionScan, if_pos hb]
      exact ih l2 _
    · cases st with
      | none =>
        simp only [List.cons_append, motionScan, if_neg hb]
        exact ih l2 none
      | some s =>
        simp only [List.cons_append, motionScan, if_neg hb, List.append_eq]
        rw [ih l2 none]
        by_cases hd : minDur ≤ ((f : ℚ) - (s : ℚ)) / fps
        · simp only [if_pos hd, List.cons_append]
        · simp only [if_neg hd]

theorem motionScan_allBelow_some (thr fps minDur : ℚ) :
    ∀ (l : List (Nat × ℚ)) (s : Nat), (∀ p ∈ l, p.2 < thr) →
      motionScan thr fps minDur (some s) l = ([], some s) := by
  intro l
  induction l with
  | nil =>
    intro s _
    rfl
  | cons p rest ih =>
    intro s hall
    obtain ⟨f, m⟩ := p
    have hb : m < thr := hall (f, m) (by simp)
    simp only [motionScan, if_pos hb, Option.getD]
    exact ih s fun q hq => hall q (by simp [hq])

theorem motionScan_allBelow_cons (thr fps minDur : ℚ) (f0 : Nat) (m0 : ℚ)
    (run : List (Nat × ℚ)) (hm0 : m0 < thr) (hrun : ∀ p ∈ run, p.2 < thr) :
    motionScan thr fps minDur none ((f0, m0) :: run) = ([], some f0) := by
  simp only [motionScan, if_pos hm0, Option.getD]
  exact motionScan_allBelow_some thr fps minDur run f0 hrun

theorem motionScan_lastHigh (thr fps minDur : ℚ) :
    ∀ (l : List (Nat × ℚ)) (st : Option Nat) (q : Nat × ℚ),
      l.getLast? = some q → thr ≤ q.2 →
      (motionScan thr fps minDur st l).2 = none := by
  intro l
  induction l with
  | nil =>
    intro st q hq _
    exact Option.noConfusion hq
  | cons p rest ih =>
    intro st q hq hthr
    obtain ⟨f, m⟩ := p
    cases rest with
    | nil =>
      simp only [List.getLast?_cons, List.getLast?_nil, Option.getD,
        Option.some.injEq] at hq
      subst hq
      have hm : ¬m < thr := not_lt.mpr hthr
      cases st with
      | none => simp only [motionScan, if_neg hm]
      | some s => simp only [motionScan, if_neg hm]
    | cons p2 rest2 =>
      have hq2 : (p2 :: rest2).getLast? = some q := by
        rw [← List.getLast?_cons_cons (a := (f, m))]
        exact hq
      by_cases hb : m < thr
      · simp only [motionScan, if_pos hb]
        exact ih _ q hq2 hthr
      · cases st with
        | none =>
          simp only [motionScan, if_neg hb]
          exact ih _ q hq2 hthr
        | some s =>
          simp only [motionScan, if_neg hb]
          exact ih _ q hq2 hthr

theorem motionScan_stateMem (thr fps minDur : ℚ) :
    ∀ (l : List (Nat × ℚ)) (st : Option Nat) (s : Nat),
      (motionScan thr fps minDur st l).2 = some s →
      st = some s ∨ s ∈ l.map Prod.fst := by
  intro l
  induction l with
  | nil =>
    intro st s h
    exact Or.inl h
  | cons p rest ih =>
    intro st s h
    obtain ⟨f, m⟩ := p
    by_cases hb : m < thr
    · simp only [motionScan, if_pos hb] at h
      rcases ih _ s h with h' | h'
      · cases st with
        | none =>
          simp only [Option.getD, Option.some.injEq] at h'
          right
          simp [← h']
        | some s0 =>
          simp only [Option.getD, Option.some.injEq] at h'
          exact Or.inl (by rw [h'])
      · right
        simp [h']
    · cases st with
      | none =>
        simp only [motionScan, if_neg hb] at h
        rcases ih none s h with h' | h'
        · exact Option.noConfusion h'
        · right
          simp [h']
      | some s0 =>
        simp only [motionScan, if_neg hb] at h
        rcases ih none s h with h' | h'
        · exact Option.noConfusion h'
        · right
          simp [h']

theorem motionScan_startsMem (thr fps minDur : ℚ) :
    ∀ (l : List (Nat × ℚ)) (st : Option Nat) (seg : MotionSeg),
      seg ∈ (motionScan thr fps minDur st l).1 →
      st = some seg.start ∨ seg.start ∈ l.map Prod.fst := by
  intro l
  induction l with
  | nil =>
    intro st seg h
    simp [motionScan] at h
  | cons p rest ih =>
    intro st seg h
    obtain ⟨f, m⟩ := p
    by_cases hb : m < thr
    · simp only [motionScan, if_pos hb] at h
      rcases ih _ seg h with h' | h'
      · cases st with
        | none =>
          simp only [Option.getD, Option.some.injEq] at h'
          right
          simp [← h']
        | some s0 =>
          simp only [Option.getD, Option.some.injEq] at h'
          exact Or.inl (by rw [h'])
      · right
        simp [h']
    · cases st with
      | none =>
        simp only [motionScan, if_neg hb] at h
        rcases ih none seg h with h' | h'
        · exact Option.noConfusion h'
        · right
          simp [h']
      | some s0 =>
        simp only [motionScan, if_neg hb] at h
        by_cases hd : minDur ≤ ((f : ℚ) - (s0 : ℚ)) / fps
        · rw [if_pos hd] at h
          rcases List.mem_cons.mp h with h' | h'
          · left
            rw [h']
          · rcases ih none seg h' with h'' | h''
            · exact Option.noConfusion h''
            · right
              simp [h'']
        · rw [if_neg hd] at h
          rcases ih none seg h with h' | h'
          · exact Option.noConfusion h'
          · right
            simp [h']

theorem motionScan_duration (thr fps minDur : ℚ) :
    ∀ (l : List (Nat × ℚ)) (st : Option Nat) (seg : MotionSeg),
      seg ∈ (motionScan thr fps minDur st l).1 →
      minDur ≤ ((seg.stop : ℚ) - (seg.start : ℚ)) / fps := by
  intro l
  induction l with
  | nil =>
    intro st seg h
    simp [motionScan] at h
  | cons p rest ih =>
    intro st seg h
    obtain ⟨f, m⟩ := p
    by_cases hb : m < thr
    · simp only [motionScan, if_pos hb] at h
      exact ih _ seg h
    · cases st with
      | none =>
        simp only [motionScan, if_neg hb] at h
        exact ih none seg h
      | some s0 =>
        simp only [motionScan, if_neg hb] at h
        by_cases hd : minDur ≤ ((f : ℚ) - (s0 : ℚ)) / fps
        · rw [if_pos hd] at h
          rcases List.mem_cons.mp h with h' | h'
          · rw [h']
            exact hd
          · exact ih none seg h'
        · rw [if_neg hd] at h
          exact ih none seg h

theorem motionScan_sound (thr fps minDur : ℚ) :
    ∀ (l : List (Nat × ℚ)) (st : Option Nat),
      List.Pairwise (fun p q : Nat × ℚ => p.1 < q.1) l →
      ∀ seg ∈ (motionScan thr fps minDur st l).1,
        ∀ p ∈ l, seg.start ≤ p.1 → p.1 < seg.stop → p.2 < thr := by
  intro l
  induction l with
  | nil =>
    intro st _ seg hseg
    simp [motionScan] at hseg
  | cons hd rest ih =>
    intro st hsorted seg hseg p hp hlo hhi
    obtain ⟨f, m⟩ := hd
    obtain ⟨hf, hrest⟩ := List.pairwise_cons.mp hsorted
    by_cases hb : m < thr
    · simp only [motionScan, if_pos hb] at hseg
      rcases List.mem_cons.mp hp with hp' | hp'
      · rw [hp']
        exact hb
      · exact ih _ hrest seg hseg p hp' hlo hhi
    · cases st with
      | none =>
        simp only [motionScan, if_neg hb] at hseg
        rcases List.mem_cons.mp hp with hp' | hp'
        · exfalso
          rcases motionScan_startsMem thr fps minDur rest none seg hseg
            with h' | h'
          · exact Option.noConfusion h'
          · obtain ⟨q, hq, hq'⟩ := List.mem_map.mp h'
            have : f < seg.start := hq' ▸ hf q hq
            rw [hp'] at hlo
            omega
        · exact ih none hrest seg hseg p hp' hlo hhi
      | some s0 =>
        simp only [motionScan, if_neg hb] at hseg
        by_cases hd' : minDur ≤ ((f : ℚ) - (s0 : ℚ)) / fps
        · rw [if_pos hd'] at hseg
          rcases List.mem_cons.mp hseg with hseg' | hseg'
          · exfalso
            have hstop : seg.stop = f := by rw [hseg']
            rw [hstop] at hhi
            rcases List.mem_cons.mp hp with hp' | hp'
            · have hp1 : p.1 = f := by rw [hp']
              rw [hp1] at hhi
              exact lt_irrefl f hhi
            · have : f < p.1 := hf p hp'
              omega
          · rcases List.mem_cons.mp hp with hp' | hp'
            · exfalso
              rcases motionScan_startsMem thr fps minDur rest none seg hseg'
                with h' | h'
              · exact Option.noConfusion h'
              · obtain ⟨q, hq, hq'⟩ := List.mem_map.mp h'
                have : f < seg.start := hq' ▸ hf q hq
                rw [hp'] at hlo
                omega
            · exact ih none hrest seg hseg' p hp' hlo hhi
        · rw [if_neg hd'] at hseg
          rcases List.mem_cons.mp hp with hp' | hp'
          · exfalso
            rcases motionScan_startsMem thr fps minDur rest none seg hseg
              with h' | h'
            · exact Option.noConfusion h'
            · obtain ⟨q, hq, hq'⟩ := List.mem_map.mp h'
              have : f < seg.start := hq' ▸ hf q hq
              rw [hp'] at hlo
              omega
          · exact ih none hrest seg hseg p hp' hlo hhi

theorem motionScan_tailBelow (thr fps minDur : ℚ) :
    ∀ (l : List (Nat × ℚ)) (st : Option Nat) (s : Nat),
      List.Pairwise (fun p q : Nat × ℚ => p.1 < q.1) l →
      (motionScan thr fps minDur st l).2 = some s →
      ∀ p ∈ l, s ≤ p.1 → p.2 < thr := by
  intro l
  induction l with
  | nil =>
    intro st s _ _ p hp
    simp at hp
  | cons hd rest ih =>
    intro st s hsorted hstate p hp hlo
    obtain ⟨f, m⟩ := hd
    obtain ⟨hf, hrest⟩ := List.pairwise_cons.mp hsorted
    by_cases hb : m < thr
    · simp only [motionScan, if_pos hb] at hstate
      rcases List.mem_cons.mp hp with hp' | hp'
      · rw [hp']
        exact hb
      · exact ih _ s hrest hstate p hp' hlo
    · have hstate' : (motionScan thr fps minDur none rest).2 = some s := by
        cases st with
        | none =>
          simp only [motionScan, if_neg hb] at hstate
          exact hstate
        | some s0 =>
          simp only [motionScan, if_neg hb] at hstate
          exact hstate
      rcases List.mem_cons.mp hp with hp' | hp'
      · exfalso
        rcases motionScan_stateMem thr fps minDur rest none s hstate'
          with h' | h'
        · exact Option.noConfusion h'
        · obtain ⟨q, hq, hq'⟩ := List.mem_map.mp h'
          have : f < s := hq' ▸ hf q hq
          rw [hp'] at hlo
          omega
      · exact ih none s hrest hstate' p hp' hlo

theorem mem_analyze_of_mem_scan (thr fps minDur : ℚ) (l : List (Nat × ℚ))
    (seg : MotionSeg) (h : seg ∈ (motionScan thr fps minDur none l).1) :
    seg ∈ analyze_motion_segments thr fps minDur l := by
  unfold analyze_motion_segments
  split
  · exact h
  · split
    · split
      · exact List.mem_append.mpr (Or.inl h)
      · exact h
    · exact h

theorem analyze_motion_sound (thr fps minDur : ℚ) (scores : List (Nat × ℚ))
    (hsorted : List.Pairwise (fun p q : Nat × ℚ => p.1 < q.1) scores) :
    ∀ seg ∈ analyze_motion_segments thr fps minDur scores,
      minDur ≤ ((seg.stop : ℚ) - (seg.start : ℚ)) / fps
      ∧ ∀ p ∈ scores, seg.start ≤ p.1 → p.1 < seg.stop → p.2 < thr := by
  intro seg hseg
  have hbase : seg ∈ (motionScan thr fps minDur none scores).1 →
      minDur ≤ ((seg.stop : ℚ) - (seg.start : ℚ)) / fps
      ∧ ∀ p ∈ scores, seg.start ≤ p.1 → p.1 < seg.stop → p.2 < thr := by
    intro h
    exact ⟨motionScan_duration thr fps minDur scores none seg h,
      fun p hp hlo hhi =>
        motionScan_sound thr fps minDur scores none hsorted seg h p hp hlo hhi⟩
  unfold analyze_motion_segments at hseg
  split at hseg
  · exact hbase hseg
  · rename_i s hstate
    split at hseg
    · rename_i last hlast
      split at hseg
      · rename_i hd
        rcases List.mem_append.mp hseg with h | h
        · exact hbase h
        · have hseg' : seg = ⟨s, last.1⟩ := List.mem_singleton.mp h
          have hstart : seg.start = s := by rw [hseg']
          have hstop : seg.stop = last.1 := by rw [hseg']
          refine ⟨by rw [hstart, hstop]; exact hd, ?_⟩
          intro p hp hlo _
          refine motionScan_tailBelow thr fps minDur scores none s hsorted
            hstate p hp ?_
          rw [hstart] at hlo
          exact hlo
      · exact hbase hseg
    · exact hbase hseg

/-- C9 (amended): over sorted sampled scores, every segment the motion pass
returns satisfies the minimum-duration bound, and every sampled score at a
frame in the half-open interval `[start, end)` is strictly below the
threshold — the score at the `end` frame itself is the one that reached the
threshold (for a run extending to the last sample, `end` is that last sampled
frame instead); and a maximal below-threshold run is returned — as the
segment from its first frame to that `end` frame — exactly when
`(end - start) / fps` reaches `min_segment_duration`. -/
theorem motion_segments_amended (thr fps minDur : ℚ) (scores : List (Nat × ℚ))
    (hsorted : List.Pairwise (fun p q : Nat × ℚ => p.1 < q.1) scores) :
    (∀ seg ∈ analyze_motion_segments thr fps minDur scores,
        minDur ≤ ((seg.stop : ℚ) - (seg.start : ℚ)) / fps
        ∧ ∀ p ∈ scores, seg.start ≤ p.1 → p.1 < seg.stop → p.2 < thr)
    ∧ (∀ (pre post run : List (Nat × ℚ)) (f0 : Nat) (m0 : ℚ),
        scores = pre ++ ((f0, m0) :: run) ++ post →
        m0 < thr → (∀ p ∈ run, p.2 < thr) →
        (∀ q, pre.getLast? = some q → thr ≤ q.2) →
        (∀ q, post.head? = some q → thr ≤ q.2) →
        (MotionSeg.mk f0 (motionStop f0 run post)
            ∈ analyze_motion_segments thr fps minDur scores
          ↔ minDur ≤ ((motionStop f0 run post : ℚ) - (f0 : ℚ)) / fps)) := by
  have hsound := analyze_motion_sound thr fps minDur scores hsorted
  refine ⟨hsound, ?_⟩
  intro pre post run f0 m0 hsplit hm0 hrun hpre hpost
  have hsplit' : scores = pre ++ (((f0, m0) :: run) ++ post) := by
    rw [hsplit, List.append_assoc]
  constructor
  · intro hmem
    exact (hsound _ hmem).1
  · intro hdur
    subst hsplit'
    have hgroup : motionScan thr fps minDur none ((f0, m0) :: run)
        = ([], some f0) :=
      motionScan_allBelow_cons thr fps minDur f0 m0 run hm0 hrun
    have hpre0 : (motionScan thr fps minDur none pre).2 = none := by
      rcases hp : pre.getLast? with _ | q
      · have hnil : pre = [] := List.getLast?_eq_none_iff.mp hp
        rw [hnil]
        rfl
      · exact motionScan_lastHigh thr fps minDur pre none q hp (hpre q hp)
    have hTotal : motionScan thr fps minDur none
          (pre ++ (((f0, m0) :: run) ++ post))
        = ((motionScan thr fps minDur none pre).1
            ++ (motionScan thr fps minDur (some f0) post).1,
           (motionScan thr fps minDur (some f0) post).2) := by
      rw [motionScan_append thr fps minDur pre (((f0, m0) :: run) ++ post) none,
        hpre0,
        motionScan_append thr fps minDur ((f0, m0) :: run) post none, hgroup]
      simp
    have hT1 : (motionScan thr fps minDur none
          (pre ++ (((f0, m0) :: run) ++ post))).1
        = (motionScan thr fps minDur none pre).1
            ++ (motionScan thr fps minDur (some f0) post).1 := by
      rw [hTotal]
    cases post with
    | nil =>
      have hstopnil : motionStop f0 run [] = (run.getLast?.getD (f0, m0)).1 := by
        rcases hq : run.getLast? with _ | q <;> simp [motionStop, hq]
      have hT2 : (motionScan thr fps minDur none
            (pre ++ (((f0, m0) :: run) ++ []))).2 = some f0 := by
        rw [hTotal]
        rfl
      have hlastScores : (pre ++ (((f0, m0) :: run) ++ [])).getLast?
          = some (run.getLast?.getD (f0, m0)) := by
        rw [List.append_nil, List.getLast?_append, List.getLast?_cons,
          Option.or_some]
      rw [hstopnil] at hdur ⊢
      have hana : analyze_motion_segments thr fps minDur
            (pre ++ (((f0, m0) :: run) ++ []))
          = (motionScan thr fps minDur none
              (pre ++ (((f0, m0) :: run) ++ []))).1
            ++ [⟨f0, (run.getLast?.getD (f0, m0)).1⟩] := by
        unfold analyze_motion_segments
        simp only [hT2, hlastScores, if_pos hdur]
      rw [hana]
      exact List.mem_append.mpr (Or.inr (List.mem_singleton.mpr rfl))
    | cons q1 pr =>
      have hq1 : thr ≤ q1.2 := hpost q1 rfl
      obtain ⟨fq, mq⟩ := q1
      have hb1 : ¬mq < thr := not_lt.mpr hq1
      have hstopval : motionStop f0 run ((fq, mq) :: pr) = fq := rfl
      rw [hstopval] at hdur ⊢
      have hscan : motionScan thr fps minDur (some f0) ((fq, mq) :: pr)
          = (⟨f0, fq⟩ :: (motionScan thr fps minDur none pr).1,
             (motionScan thr fps minDur none pr).2) := by
        simp only [motionScan, if_neg hb1]
        rw [if_pos hdur]
      refine mem_analyze_of_mem_scan thr fps minDur _ _ ?_
      rw [hT1, hscan]
      exact List.mem_append.mpr (Or.inr (List.mem_cons.mpr (Or.inl rfl)))

/-- C9 counterexample: with threshold 5, fps 1 and no minimum duration, the
sampled scores (5, 0), (10, 9) yield the single segment {start 5, end 10} —
yet the sampled score at frame 10, inside the returned interval read
inclusively, is 9, not strictly below the threshold: the segment's `end` is
the very frame at which motion reached the threshold. -/
theorem motion_segments_counterexample :
    ∃ seg ∈ analyze_motion_segments 5 1 0 [(5, 0), (10, 9)],
      ∃ p ∈ [((5 : Nat), (0 : ℚ)), (10, 9)],
        seg.start ≤ p.1 ∧ p.1 ≤ seg.stop ∧ ¬p.2 < 5 := by
  have hana : analyze_motion_segments 5 1 0 [(5, 0), (10, 9)]
      = [⟨5, 10⟩] := by
    norm_num [analyze_motion_segments, motionScan]
  refine ⟨⟨5, 10⟩, by rw [hana]; exact List.mem_singleton.mpr rfl,
    (10, 9), by simp, by norm_num, by norm_num, by norm_num⟩

/-- C9 witness: scores sampled at stride 5 — frames 0, 5 below threshold,
frame 10 at 9 ≥ 5 — with fps 5 and minimum duration 2 produce the segment
from 0 to 10 ((10 − 0)/5 = 2 ≥ 2). -/
theorem motion_segments_amended_witness :
    MotionSeg.mk 0 10 ∈ analyze_motion_segments 5 5 2 [(0, 0), (5, 0), (10, 9)] := by
  have h := (motion_segments_amended 5 5 2 [(0, 0), (5, 0), (10, 9)]
      (by norm_num [List.pairwise_cons])).2
    [] [(10, 9)] [(5, 0)] 0 0 rfl (by norm_num)
    (by
      intro p hp
      rw [List.mem_singleton.mp hp]
      norm_num)
    (by
      intro q hq
      exact absurd hq (by simp))
    (by
      intro q hq
      simp only [List.head?_cons, Option.some.injEq] at hq
      rw [← hq]
      norm_num)
  exact h.mpr (by norm_num [motionStop])

end PipeInspect
